import Mathlib

/-!
Shallow embedding of the zk-kit-mcp package registry core
(src/registry.ts, src/config.ts, src/discovery.ts, src/cache.ts and the
get_dependency_graph tool handler of src/index.ts), together with proofs
about name resolution, search ranking, dependency-graph classification,
empty-registry sentinels, category inference, name derivation and the
discovery pipeline.

Strings are modelled over their character lists.  JavaScript
toLowerCase/toUpperCase are modelled by the ASCII Char.toLower/Char.toUpper
(all registry data is ASCII); JS default array sort on strings and
localeCompare are modelled by code-point lexicographic order.
-/

namespace ZkKit

/-- The closed language enumeration of src/types.ts. -/
inductive Language where
  | typescript
  | circom
  | solidity
  | noir
  | rust
deriving DecidableEq

/-- The string value a Language carries at runtime. -/
def langString : Language → String
  | .typescript => "typescript"
  | .circom => "circom"
  | .solidity => "solidity"
  | .noir => "noir"
  | .rust => "rust"

/-- The closed category enumeration of src/types.ts. -/
inductive Category where
  | merkleTrees
  | cryptography
  | identity
  | accessControl
  | math
  | other
deriving DecidableEq

/-- The Package record of src/types.ts. -/
structure Package where
  name : String
  dirName : String
  language : Language
  category : Category
  repo : String
  description : String
  installCommand : String
  crossLanguageId : String
  version : Option String
  zkKitDependencies : List String
deriving DecidableEq

/-- The RepoConfig record of src/types.ts. -/
structure RepoConfig where
  slug : String
  language : Language
  packagePath : String
  branch : String
deriving DecidableEq

/-- JS String.prototype.toLowerCase (ASCII model). -/
def jsToLower (s : String) : String := String.mk (s.data.map Char.toLower)

/-- JS String.prototype.toUpperCase (ASCII model). -/
def jsToUpper (s : String) : String := String.mk (s.data.map Char.toUpper)

/-- Does the needle occur at the head of the haystack? -/
def startsWithChars : List Char → List Char → Bool
  | [], _ => true
  | _ :: _, [] => false
  | n :: ns, h :: hs => n == h && startsWithChars ns hs

/-- Does the needle occur anywhere in the haystack? -/
def containsChars (needle : List Char) : List Char → Bool
  | [] => startsWithChars needle []
  | h :: hs => startsWithChars needle (h :: hs) || containsChars needle hs

/-- JS String.prototype.includes. -/
def jsIncludes (hay needle : String) : Bool := containsChars needle.data hay.data

/-- Drop the given leading characters when they are present
(the JS replace of an anchored literal pattern with the empty string). -/
def stripIfPre (pre l : List Char) : List Char :=
  if startsWithChars pre l then l.drop pre.length else l

/-- registry.ts getByName step 2: name.replace of the leading zk-kit scope. -/
def stripScope (s : String) : String := String.mk (stripIfPre "@zk-kit/".data s.data)

/-- registry.ts getByName step 4: lower.replace of every underscore by a hyphen. -/
def underscoresToHyphens (s : String) : String :=
  String.mk (s.data.map (fun c => if c == '_' then '-' else c))

/-- registry.ts getByName step 4: normalized.replace of a leading zk-kit- run. -/
def stripZkKitPre (s : String) : String := String.mk (stripIfPre "zk-kit-".data s.data)

/-- PackageRegistry.getByName (src/registry.ts lines 19-45):
exact name, then scope-stripped name, then dirName, then normalized match,
all case-insensitively, first match wins. -/
def getByName (packages : List Package) (name : String) : Option Package :=
  let lower := jsToLower name
  match packages.find? (fun p => jsToLower p.name == lower) with
  | some p => some p
  | none =>
    match packages.find? (fun p => stripScope (jsToLower p.name) == lower) with
    | some p => some p
    | none =>
      match packages.find? (fun p => jsToLower p.dirName == lower) with
      | some p => some p
      | none =>
        let normalized := underscoresToHyphens lower
        let withoutPre := stripZkKitPre normalized
        if normalized ≠ lower ∨ withoutPre ≠ normalized then
          packages.find? (fun p =>
            jsToLower p.dirName == withoutPre || jsToLower p.dirName == normalized)
        else none

/-- One whitespace character of the JS regex class used by split. -/
def isWsChar (c : Char) : Bool := c == ' ' || c == '\t' || c == '\n' || c == '\r'

/-- Split into maximal non-whitespace runs; the accumulator holds the
current run reversed.  Models split on a whitespace run followed by a
filter that removes empty strings. -/
def wordsAux : List Char → List Char → List (List Char)
  | [], acc => if acc.isEmpty then [] else [acc.reverse]
  | c :: cs, acc =>
    if isWsChar c then
      (if acc.isEmpty then wordsAux cs [] else acc.reverse :: wordsAux cs [])
    else wordsAux cs (c :: acc)

/-- query.toLowerCase().split on whitespace, empty strings filtered out
(registry.ts lines 48 and 68). -/
def splitTerms (q : String) : List String := (wordsAux (jsToLower q).data []).map String.mk

/-- The per-term score of registry.ts search: 3 for name, 2 for dirName,
1 for description, additive. -/
def termScore (p : Package) (term : String) : Nat :=
  (if jsIncludes (jsToLower p.name) term then 3 else 0) +
  (if jsIncludes (jsToLower p.dirName) term then 2 else 0) +
  (if jsIncludes (jsToLower p.description) term then 1 else 0)

/-- The scoring loop of registry.ts search lines 74-82: accumulate term
scores, returning 0 as soon as one term scores 0 in all three fields. -/
def scoreAux (p : Package) : List String → Nat → Nat
  | [], acc => acc
  | t :: ts, acc => if termScore p t = 0 then 0 else scoreAux p ts (acc + termScore p t)

/-- The total relevance score of a package for a term list. -/
def scorePackage (terms : List String) (p : Package) : Nat := scoreAux p terms 0

/-- The optional language and category equality filters of search
(registry.ts lines 61-66). -/
def applyFilters (packages : List Package) (language : Option Language)
    (category : Option Category) : List Package :=
  let r1 := match language with
    | some l => packages.filter (fun p => decide (p.language = l))
    | none => packages
  match category with
  | some c => r1.filter (fun p => decide (p.category = c))
  | none => r1

/-- Stable insertion of one element into a list ordered by the Boolean
relation le, placing x before the first y with le x y. -/
def insertOrd (le : α → α → Bool) (x : α) : List α → List α
  | [] => [x]
  | y :: ys => if le x y then x :: y :: ys else y :: insertOrd le x ys

/-- Stable insertion sort, the model of the (ES2019 stable) JS array sort. -/
def sortOrd (le : α → α → Bool) : List α → List α
  | [] => []
  | x :: xs => insertOrd le x (sortOrd le xs)

/-- Lexicographic order on character lists, by code point. -/
def charsLE : List Char → List Char → Bool
  | [], _ => true
  | _ :: _, [] => false
  | a :: as, b :: bs =>
    if a.toNat < b.toNat then true
    else if b.toNat < a.toNat then false
    else charsLE as bs

/-- The comparator of search: descending by score. -/
def scoredLE (a b : Package × Nat) : Bool := decide (b.2 ≤ a.2)

/-- PackageRegistry.search (src/registry.ts lines 58-91).  The empty
query string is falsy in JS, so it behaves as no query. -/
def search (packages : List Package) (query : Option String)
    (language : Option Language) (category : Option Category) : List Package :=
  let base := applyFilters packages language category
  match query with
  | none => base
  | some q =>
    if q = "" then base
    else
      let terms := splitTerms q
      let scored := base.map (fun p => (p, scorePackage terms p))
      let kept := scored.filter (fun r => decide (0 < r.2))
      (sortOrd scoredLE kept).map (fun r => r.1)

/-- PackageRegistry.suggest (src/registry.ts lines 47-56). -/
def suggest (packages : List Package) (name : String) (limit : Nat) : List Package :=
  let terms := splitTerms name
  (packages.filter (fun p =>
    terms.all (fun t => jsIncludes (jsToLower p.name) t || jsIncludes (jsToLower p.dirName) t))).take limit

/-- The five configured repositories of src/config.ts. -/
def REPOS : List RepoConfig :=
  [ ⟨"zk-kit/zk-kit", .typescript, "packages", "main"⟩,
    ⟨"zk-kit/zk-kit.circom", .circom, "packages", "main"⟩,
    ⟨"zk-kit/zk-kit.solidity", .solidity, "packages", "main"⟩,
    ⟨"zk-kit/zk-kit.noir", .noir, "packages", "main"⟩,
    ⟨"zk-kit/zk-kit.rust", .rust, "crates", "main"⟩ ]

/-- The per-language literal name override table of src/config.ts. -/
def NAME_OVERRIDES (lang : Language) : List (String × String) :=
  match lang with
  | .solidity => [("excubiae", "@zk-kit/excubiae")]
  | _ => []

/-- The per-language default naming template of config.ts deriveName. -/
def deriveNameTemplate (dirName : String) (language : Language) : String :=
  match language with
  | .typescript => "@zk-kit/" ++ dirName
  | .circom => "@zk-kit/" ++ dirName ++ ".circom"
  | .solidity => "@zk-kit/" ++ dirName ++ ".sol"
  | .noir => String.mk (dirName.data.map (fun c => if c == '-' then '_' else c))
  | .rust => "zk-kit-" ++ dirName

/-- config.ts deriveName: the override table is consulted first (a JS
truthiness check, so an empty override value would fall through), then the
per-language template. -/
def deriveName (dirName : String) (language : Language) : String :=
  let override := ((NAME_OVERRIDES language).find? (fun kv => kv.1 == dirName)).map (·.2)
  match override with
  | some v =>
    if v = "" then deriveNameTemplate dirName language else v
  | none => deriveNameTemplate dirName language

/-- config.ts deriveInstallCommand. -/
def deriveInstallCommand (name dirName : String) (language : Language) (slug : String) : String :=
  match language with
  | .typescript => "npm i " ++ name
  | .circom => "npm i " ++ name
  | .solidity => "npm i " ++ name
  | .noir =>
    "Add to Nargo.toml: " ++ name ++ " = \x7b git = \"https://github.com/" ++ slug
      ++ "\", tag = \"main\", directory = \"packages/" ++ dirName ++ "\" \x7d"
  | .rust => "cargo add " ++ name

/-- Does one keyword match at the head of rest, followed by a hyphen or
the end of the string (the regex tail boundary)? -/
def kwAt (kw rest : List Char) : Bool :=
  startsWithChars kw rest &&
    (match rest.drop kw.length with
     | [] => true
     | c :: _ => c == '-')

/-- Scan every position of the string that the regex head boundary accepts
(the start of the string, or just after a hyphen) for one of the keywords. -/
def kwScan (kws : List (List Char)) : List Char → Bool → Bool
  | [], _ => false
  | c :: cs, boundary =>
    (boundary && kws.any (fun kw => kwAt kw (c :: cs))) || kwScan kws cs (c == '-')

/-- A rule pattern of CATEGORY_RULES matches when one of its keywords
occurs delimited by start/end of string or hyphens.  The optional hyphen
of the baby-jubjub pattern is expanded into two keywords. -/
def ruleMatches (kws : List (List Char)) (dirName : String) : Bool :=
  kwScan kws dirName.data true

/-- The ordered rule list CATEGORY_RULES of src/config.ts. -/
def CATEGORY_RULES : List (List (List Char) × Category) :=
  [ (["imt".data, "merkle".data, "smt".data, "pmt".data], .merkleTrees),
    (["eddsa".data, "ecdh".data, "poseidon".data, "babyjubjub".data, "baby-jubjub".data], .cryptography),
    (["excubiae".data], .accessControl),
    (["semaphore".data, "rln".data, "identity".data], .identity),
    (["utils".data, "math".data], .math) ]

/-- config.ts inferCategory: first matching rule wins, other if none match. -/
def inferCategory (dirName : String) : Category :=
  match CATEGORY_RULES.find? (fun r => ruleMatches r.1 dirName) with
  | some r => r.2
  | none => .other

/-- config.ts deriveCrossLanguageId: the identity on dirName. -/
def deriveCrossLanguageId (dirName : String) : String := dirName

/-- The manifest info a collaborator returns for one subdirectory
(github.ts fetchManifestInfo result shape). -/
structure Manifest where
  description : String
  version : Option String
  zkKitDependencies : Option (List String)
deriving DecidableEq

/-- The network collaborators of the discovery pipeline, as oracles: each
call either yields a value or fails with a message (a rejected promise). -/
structure Collab where
  listing : RepoConfig → Except String (List String)
  manifest : RepoConfig → String → Except String Manifest

/-- Package construction in discovery.ts lines 68-81. -/
def mkPackage (repo : RepoConfig) (dirName : String) (m : Manifest) : Package :=
  { name := deriveName dirName repo.language
    dirName := dirName
    language := repo.language
    category := inferCategory dirName
    repo := "https://github.com/" ++ repo.slug ++ "/tree/" ++ repo.branch ++ "/"
      ++ repo.packagePath ++ "/" ++ dirName
    description := m.description
    installCommand := deriveInstallCommand (deriveName dirName repo.language) dirName repo.language repo.slug
    crossLanguageId := deriveCrossLanguageId dirName
    version := m.version
    zkKitDependencies := m.zkKitDependencies.getD [] }

/-- One repository of the discovery fan-out: a failed listing rejects the
whole repository (caught by the outer allSettled); a failed manifest fetch
drops only its own subdirectory (inner allSettled). -/
def discoverRepo (collab : Collab) (repo : RepoConfig) : Except String (List Package) :=
  match collab.listing repo with
  | .error e => .error e
  | .ok dirs =>
    .ok (dirs.filterMap (fun dirName =>
      match collab.manifest repo dirName with
      | .error _ => none
      | .ok m => some (mkPackage repo dirName m)))

/-- The fixed language precedence LANGUAGE_ORDER of src/discovery.ts. -/
def langOrder : Language → Nat
  | .typescript => 0
  | .circom => 1
  | .solidity => 2
  | .noir => 3
  | .rust => 4

/-- The comparator of the final discovery sort: language precedence first,
then name (localeCompare modelled as code-point order). -/
def pkgLE (a b : Package) : Bool :=
  decide (langOrder a.language < langOrder b.language) ||
    (decide (langOrder a.language = langOrder b.language) && charsLE a.name.data b.name.data)

/-- The allSettled harvest: keep fulfilled values, skip rejections
(discovery.ts lines 97-109). -/
def collectOk {ε α : Type} (acc : List α) (r : Except ε (List α)) : List α :=
  match r with
  | .ok ps => acc ++ ps
  | .error _ => acc

/-- The pre-sort accumulation of surviving packages over all repositories
(discovery.ts lines 97-109). -/
def survivors (collab : Collab) : List Package :=
  (REPOS.map (discoverRepo collab)).foldl collectOk []

/-- discovery.ts discoverAllPackages: gather per-repository outcomes,
keep the fulfilled ones, sort by language order then name. -/
def discoverAllPackages (collab : Collab) : List Package :=
  sortOrd pkgLE (survivors collab)

/-- JS Set insertion: append when not already present. -/
def insertUnique (l : List String) (x : String) : List String :=
  if l.contains x then l else l ++ [x]

/-- JS Set built from a traversal, as an insertion-ordered duplicate-free
list. -/
def dedup (l : List String) : List String := l.foldl insertUnique []

/-- JS Array.prototype.join. -/
def joinSep (sep : String) : List String → String
  | [] => ""
  | [s] => s
  | s :: t :: rest => s ++ sep ++ joinSep sep (t :: rest)

/-- The comparator of JS default string sort and of the localeCompare
sorts, modelled as code-point lexicographic order. -/
def strLE (a b : String) : Bool := charsLE a.data b.data

/-- The set of concept nodes of getDependencyGraph (registry.ts lines
299-312): every crossLanguageId of a package and every listed dependency,
in first-seen order. -/
def allConcepts (packages : List Package) : List String :=
  packages.foldl
    (fun acc p => p.zkKitDependencies.foldl insertUnique (insertUnique acc p.crossLanguageId)) []

/-- The distinct crossLanguageIds of the packages themselves, in
first-seen order (the key set of the dependsOn map). -/
def pkgConceptIds (packages : List Package) : List String :=
  packages.foldl (fun acc p => insertUnique acc p.crossLanguageId) []

/-- The dependsOn entry of a concept: the union of the zkKitDependencies
of every package carrying that crossLanguageId, in first-seen order. -/
def conceptDeps (packages : List Package) (c : String) : List String :=
  packages.foldl
    (fun acc p => if p.crossLanguageId == c then p.zkKitDependencies.foldl insertUnique acc else acc) []

/-- The dependedBy entry of a concept: the crossLanguageIds of the
packages that list it as a dependency, in first-seen order. -/
def conceptDependents (packages : List Package) (c : String) : List String :=
  packages.foldl
    (fun acc p => if p.zkKitDependencies.contains c then insertUnique acc p.crossLanguageId else acc) []

/-- The languages implementing a concept, in first-seen order
(the per-concept language set of the graph and coverage renderers). -/
def conceptLangs (packages : List Package) (c : String) : List String :=
  dedup ((packages.filter (fun p => p.crossLanguageId == c)).map (fun p => langString p.language))

/-- One step of the classification loop of getDependencyGraph (registry.ts
lines 319-330): in-degree positive wins, then out-degree positive, else
independent. -/
def classifyStep (packages : List Package) (acc : List String × List String × List String)
    (c : String) : List String × List String × List String :=
  if 0 < (conceptDependents packages c).length then
    (acc.1 ++ [c], acc.2.1, acc.2.2)
  else if 0 < (conceptDeps packages c).length then
    (acc.1, acc.2.1 ++ [c], acc.2.2)
  else
    (acc.1, acc.2.1, acc.2.2 ++ [c])

/-- The three classification lists of getDependencyGraph, built over the
lexicographically sorted concept set. -/
def classifyConcepts (packages : List Package) : List String × List String × List String :=
  (sortOrd strLE (allConcepts packages)).foldl (classifyStep packages) ([], [], [])

/-- The foundational concepts (in-degree positive). -/
def foundationalConcepts (packages : List Package) : List String :=
  (classifyConcepts packages).1

/-- The leaf concepts (in-degree zero, out-degree positive). -/
def leafConcepts (packages : List Package) : List String :=
  (classifyConcepts packages).2.1

/-- The independent concepts (no edges in either direction). -/
def independentConcepts (packages : List Package) : List String :=
  (classifyConcepts packages).2.2

/-- PackageRegistry.getDependencyGraph (registry.ts lines 293-367). -/
def getDependencyGraph (packages : List Package) : String :=
  if packages.length == 0 then "No packages available."
  else
    let foundational := foundationalConcepts packages
    let leaf := leafConcepts packages
    let independent := independentConcepts packages
    let totalDeps := ((pkgConceptIds packages).map (fun c => (conceptDeps packages c).length)).sum
    let md0 := "# ZK-Kit Internal Dependency Graph\n\n"
      ++ "**" ++ toString (allConcepts packages).length ++ " concepts**, **"
      ++ toString totalDeps ++ " internal dependencies**\n\n"
    let md1 := md0 ++
      (if 0 < foundational.length then
        "## Foundational Packages\n\nDepended on by other ZK-Kit packages:\n\n"
          ++ String.join (foundational.map (fun c =>
              "- **" ++ c ++ "** (" ++ joinSep ", " (conceptLangs packages c) ++ "): used by "
                ++ joinSep ", " (sortOrd strLE (conceptDependents packages c)) ++ "\n"))
          ++ "\n"
      else "")
    let md2 := md1 ++
      (if 0 < leaf.length then
        "## Leaf Packages\n\nDepend on other ZK-Kit packages but are not depended on:\n\n"
          ++ String.join (leaf.map (fun c =>
              "- **" ++ c ++ "** (" ++ joinSep ", " (conceptLangs packages c) ++ "): depends on "
                ++ joinSep ", " (sortOrd strLE (conceptDeps packages c)) ++ "\n"))
          ++ "\n"
      else "")
    md2 ++
      (if 0 < independent.length then
        "## Independent Packages\n\nNo internal ZK-Kit dependencies:\n\n"
          ++ String.join (independent.map (fun c =>
              "- **" ++ c ++ "** (" ++ joinSep ", " (conceptLangs packages c) ++ ")\n"))
      else "")

/-- Rounding of 100 * filled / total to the nearest integer, ties up: the
model of the JS float expression (1 - gapCount / totalSlots) * 100 under
toFixed(0); the double computation can differ on representation ties, but
the branch is never evaluated by the claims below. -/
def pctRound (filled total : Nat) : Nat := (200 * filled + total) / (2 * total)

/-- PackageRegistry.getCrossLanguageCoverage (registry.ts lines 192-241). -/
def getCrossLanguageCoverage (packages : List Package) : String :=
  let languages := sortOrd strLE (dedup (packages.map (fun p => langString p.language)))
  let concepts := sortOrd strLE (pkgConceptIds packages)
  if concepts.length == 0 then "No packages available."
  else
    let totalSlots := concepts.length * languages.length
    let gapCount := (concepts.map (fun c => languages.length - (conceptLangs packages c).length)).sum
    let md0 := "# Cross-Language Coverage Matrix\n\n"
      ++ "| Concept | " ++ joinSep " | " languages ++ " |\n"
      ++ "|---------|" ++ joinSep "|" (languages.map (fun _ => "---")) ++ "|\n"
    let md1 := md0 ++ String.join (concepts.map (fun c =>
      "| " ++ c ++ " | "
        ++ joinSep " | " (languages.map (fun l => if (conceptLangs packages c).contains l then "yes" else "-"))
        ++ " |\n"))
    let md2 := md1 ++ "\n**" ++ toString concepts.length ++ " concepts** across **"
      ++ toString languages.length ++ " languages** - "
      ++ "**" ++ toString (pctRound (totalSlots - gapCount) totalSlots) ++ "% coverage** ("
      ++ toString (totalSlots - gapCount) ++ "/" ++ toString totalSlots ++ " slots filled)\n"
    let multiLang := concepts.filter (fun c => 1 < (conceptLangs packages c).length)
    let md3 := md2 ++
      (if 0 < multiLang.length then
        "\n## Multi-Language Concepts\n" ++ String.join (multiLang.map (fun c =>
          "- **" ++ c ++ "**: " ++ joinSep ", " (conceptLangs packages c) ++ "\n"))
      else "")
    let singleLang := concepts.filter (fun c => (conceptLangs packages c).length == 1)
    md3 ++
      (if 0 < singleLang.length then
        "\n## Single-Language Only (potential gaps)\n" ++ String.join (singleLang.map (fun c =>
          "- **" ++ c ++ "**: " ++ joinSep ", " (conceptLangs packages c) ++ " only\n"))
      else "")

/-- One dependent entry of getReverseDependencies: a concept together
with the languages of its packages that were seen so far. -/
structure DependentEntry where
  concept : String
  languages : List String
deriving DecidableEq

/-- Record one dependent package in the dependents list (registry.ts
lines 250-255): extend the languages of an existing entry, or append a
new entry. -/
def updateDependents (l : List DependentEntry) (concept lang : String) : List DependentEntry :=
  match l with
  | [] => [⟨concept, [lang]⟩]
  | e :: rest =>
    if e.concept == concept then
      (if e.languages.contains lang then e :: rest else ⟨e.concept, e.languages ++ [lang]⟩ :: rest)
    else e :: updateDependents rest concept lang

/-- One package of the accumulation loop of getReverseDependencies
(registry.ts lines 248-262). -/
def revDepStep (id : String) (acc : List DependentEntry × List String) (p : Package) :
    List DependentEntry × List String :=
  let dependents :=
    if p.zkKitDependencies.contains id then
      updateDependents acc.1 p.crossLanguageId (langString p.language)
    else acc.1
  let directDeps :=
    if p.crossLanguageId == id then
      p.zkKitDependencies.foldl insertUnique acc.2
    else acc.2
  (dependents, directDeps)

/-- PackageRegistry.getReverseDependencies (registry.ts lines 243-291). -/
def getReverseDependencies (packages : List Package) (id : String) : String :=
  let st := packages.foldl (revDepStep id) ([], [])
  let dependents := st.1
  let directDeps := st.2
  let targetLangs := dedup ((packages.filter (fun p => p.crossLanguageId == id)).map
    (fun p => langString p.language))
  let md0 := "# Dependency Info: " ++ id ++ "\n\n"
    ++ "**Available in:** " ++ joinSep ", " targetLangs ++ "\n\n"
  let md1 := md0 ++
    (if 0 < directDeps.length then
      "## Depends On\n\n" ++ String.join ((sortOrd strLE directDeps).map (fun dep =>
        "- **" ++ dep ++ "** (" ++ joinSep ", " (conceptLangs packages dep) ++ ")\n"))
        ++ "\n"
    else "")
  md1 ++
    (if 0 < dependents.length then
      "## Depended On By\n\n"
        ++ String.join ((sortOrd (fun a b => strLE a.concept b.concept) dependents).map (fun d =>
            "- **" ++ d.concept ++ "** (" ++ joinSep ", " d.languages ++ ")\n"))
        ++ "\n"
        ++ "**" ++ toString dependents.length ++ " package(s)** depend on " ++ id ++ ".\n"
    else "No other ZK-Kit packages depend on " ++ id ++ ".\n")

/-- The EMPTY_REGISTRY_HINT constant of src/index.ts. -/
def EMPTY_REGISTRY_HINT : String :=
  " The package registry is empty, this usually means GitHub API requests failed at startup. Check server logs and ensure GITHUB_TOKEN is set for higher rate limits."

/-- The resolvePackage helper of src/index.ts: a resolved package on the
left, a rendered not-found text on the right. -/
def resolvePackage (packages : List Package) (name : String) : Sum Package String :=
  match getByName packages name with
  | some p => .inl p
  | none =>
    if packages.length == 0 then
      .inr ("Package \"" ++ name ++ "\" not found." ++ EMPTY_REGISTRY_HINT)
    else
      let suggestions := suggest packages name 5
      if 0 < suggestions.length then
        .inr ("Package \"" ++ name ++ "\" not found. Did you mean:\n"
          ++ joinSep "\n" (suggestions.map (fun s => "- " ++ s.name)))
      else
        .inr ("Package \"" ++ name ++ "\" not found. Use list_packages to see available packages.")

/-- The get_dependency_graph tool handler of src/index.ts (lines
1175-1190 of the bundled source): an empty registry short-circuits to the
sentinel plus hint; with a (truthy) name the reverse-dependency view is
rendered, otherwise the full graph. -/
def getDependencyGraphTool (packages : List Package) (name : Option String) : String :=
  if packages.length == 0 then "No packages available." ++ EMPTY_REGISTRY_HINT
  else
    match name with
    | some n =>
      if n = "" then getDependencyGraph packages
      else
        match resolvePackage packages n with
        | .inl pkg => getReverseDependencies packages pkg.crossLanguageId
        | .inr txt => txt
    | none => getDependencyGraph packages

/-- The naming contract exactly as the specification words it: an
override table entry is returned verbatim when present, otherwise the
fixed per-language template.  Kept separate from deriveName (the source
translation) so the two can be compared. -/
def deriveNameSpec (dirName : String) (language : Language) : String :=
  match (NAME_OVERRIDES language).find? (fun kv => kv.1 == dirName) with
  | some kv => kv.2
  | none =>
    match language with
    | .typescript => "@zk-kit/" ++ dirName
    | .circom => "@zk-kit/" ++ dirName ++ ".circom"
    | .solidity => "@zk-kit/" ++ dirName ++ ".sol"
    | .noir => String.mk (dirName.data.map (fun c => if c == '-' then '_' else c))
    | .rust => "zk-kit-" ++ dirName

/-- A TypeScript lean-imt package, as discovery would build it. -/
def tsLeanImt : Package :=
  { name := "@zk-kit/lean-imt"
    dirName := "lean-imt"
    language := .typescript
    category := .merkleTrees
    repo := "https://github.com/zk-kit/zk-kit/tree/main/packages/lean-imt"
    description := "Lean incremental Merkle tree implementation."
    installCommand := "npm i @zk-kit/lean-imt"
    crossLanguageId := "lean-imt"
    version := some "1.0.0"
    zkKitDependencies := [] }

/-- A Rust lean-imt package sharing the dirName of the TypeScript one. -/
def rustLeanImt : Package :=
  { name := "zk-kit-lean-imt"
    dirName := "lean-imt"
    language := .rust
    category := .merkleTrees
    repo := "https://github.com/zk-kit/zk-kit.rust/tree/main/crates/lean-imt"
    description := "Lean incremental Merkle tree implementation."
    installCommand := "cargo add zk-kit-lean-imt"
    crossLanguageId := "lean-imt"
    version := some "0.1.0"
    zkKitDependencies := [] }

/-- A two-package registry with one concept implemented in two languages. -/
def demoRegistry : List Package := [tsLeanImt, rustLeanImt]

/-- A package of the three-node chain: concept a depends on concept b. -/
def chainA : Package :=
  { name := "@zk-kit/a"
    dirName := "a"
    language := .typescript
    category := .other
    repo := "https://github.com/zk-kit/zk-kit/tree/main/packages/a"
    description := "Chain node a."
    installCommand := "npm i @zk-kit/a"
    crossLanguageId := "a"
    version := none
    zkKitDependencies := ["b"] }

/-- A package of the three-node chain: concept b depends on concept c. -/
def chainB : Package :=
  { name := "@zk-kit/b"
    dirName := "b"
    language := .typescript
    category := .other
    repo := "https://github.com/zk-kit/zk-kit/tree/main/packages/b"
    description := "Chain node b."
    installCommand := "npm i @zk-kit/b"
    crossLanguageId := "b"
    version := none
    zkKitDependencies := ["c"] }

/-- A package of the three-node chain: concept c has no dependencies. -/
def chainC : Package :=
  { name := "@zk-kit/c"
    dirName := "c"
    language := .typescript
    category := .other
    repo := "https://github.com/zk-kit/zk-kit/tree/main/packages/c"
    description := "Chain node c."
    installCommand := "npm i @zk-kit/c"
    crossLanguageId := "c"
    version := none
    zkKitDependencies := [] }

/-- The registry of the three-node dependency chain a depends-on b depends-on c. -/
def chainPackages : List Package := [chainA, chainB, chainC]

/-- A collaborator whose every network call fails. -/
def failCollab : Collab :=
  { listing := fun _ => .error "network error"
    manifest := fun _ _ => .error "network error" }

/-! Generic lemmas about find?, the stable insertion sort and the
character-list order. -/

theorem find?_eq_none_of {α : Type} (p : α → Bool) :
    ∀ l : List α, (∀ b ∈ l, p b = false) → l.find? p = none
  | [], _ => rfl
  | b :: l, h => by
    have hb : p b = false := h b (List.mem_cons_self b l)
    have ih := find?_eq_none_of p l (fun x hx => h x (List.mem_cons_of_mem b hx))
    simp [List.find?, hb, ih]

theorem find?_eq_some_of {α : Type} (p : α → Bool) (a : α) :
    ∀ l : List α, a ∈ l → p a = true → (∀ b ∈ l, p b = true → b = a) → l.find? p = some a
  | [], ha, _, _ => absurd ha (List.not_mem_nil a)
  | b :: l, ha, hpa, h => by
    cases hpb : p b with
    | true =>
      have : b = a := h b (List.mem_cons_self b l) hpb
      simp [List.find?, hpb, hpa, this]
    | false =>
      have hal : a ∈ l := by
        rcases List.mem_cons.mp ha with h1 | h1
        · subst h1; rw [hpa] at hpb; exact absurd hpb (by simp)
        · exact h1
      have ih := find?_eq_some_of p a l hal hpa (fun x hx => h x (List.mem_cons_of_mem b hx))
      simp [List.find?, hpb, ih]

theorem find?_uniq_cases {α : Type} (p : α → Bool) (a : α) :
    ∀ l : List α, (∀ b ∈ l, p b = true → b = a) → l.find? p = some a ∨ l.find? p = none
  | [], _ => Or.inr rfl
  | b :: l, h => by
    cases hpb : p b with
    | true =>
      have : b = a := h b (List.mem_cons_self b l) hpb
      subst this
      simp [List.find?, hpb]
    | false =>
      have ih := find?_uniq_cases p a l (fun x hx => h x (List.mem_cons_of_mem b hx))
      simpa [List.find?, hpb] using ih

theorem find?_append_first {α : Type} (p : α → Bool) (a : α) (l₂ : List α) :
    ∀ l₁ : List α, (∀ b ∈ l₁, p b = false) → p a = true → (l₁ ++ a :: l₂).find? p = some a
  | [], _, hpa => by simp [List.find?, hpa]
  | b :: l₁, h, hpa => by
    have hb : p b = false := h b (List.mem_cons_self b l₁)
    have ih := find?_append_first p a l₂ l₁ (fun x hx => h x (List.mem_cons_of_mem b hx)) hpa
    simp [List.find?, hb, ih]

theorem insertOrd_perm {α : Type} (le : α → α → Bool) (x : α) :
    ∀ l : List α, List.Perm (insertOrd le x l) (x :: l)
  | [] => List.Perm.refl _
  | y :: ys => by
    simp only [insertOrd]
    cases hxy : le x y with
    | true => simp
    | false =>
      simp only [Bool.false_eq_true, if_false]
      exact ((insertOrd_perm le x ys).cons y).trans (List.Perm.swap x y ys)

theorem sortOrd_perm {α : Type} (le : α → α → Bool) :
    ∀ l : List α, List.Perm (sortOrd le l) l
  | [] => List.Perm.refl _
  | x :: xs => (insertOrd_perm le x (sortOrd le xs)).trans ((sortOrd_perm le xs).cons x)

theorem mem_sortOrd {α : Type} (le : α → α → Bool) (l : List α) (a : α) :
    a ∈ sortOrd le l ↔ a ∈ l :=
  (sortOrd_perm le l).mem_iff

theorem mem_insertOrd {α : Type} (le : α → α → Bool) (x : α) (l : List α) (a : α) :
    a ∈ insertOrd le x l ↔ a = x ∨ a ∈ l := by
  rw [(insertOrd_perm le x l).mem_iff, List.mem_cons]

theorem insertOrd_pairwise {α : Type} (le : α → α → Bool)
    (htot : ∀ a b, le a b = true ∨ le b a = true)
    (htrans : ∀ a b c, le a b = true → le b c = true → le a c = true) (x : α) :
    ∀ l : List α, l.Pairwise (fun a b => le a b = true) →
      (insertOrd le x l).Pairwise (fun a b => le a b = true)
  | [], _ => List.pairwise_singleton _ x
  | y :: ys, h => by
    rcases List.pairwise_cons.mp h with ⟨hy, hys⟩
    simp only [insertOrd]
    cases hxy : le x y with
    | true =>
      refine List.pairwise_cons.mpr ⟨?_, h⟩
      intro z hz
      rcases List.mem_cons.mp hz with h1 | h1
      · subst h1; exact hxy
      · exact htrans x y z hxy (hy z h1)
    | false =>
      simp only [Bool.false_eq_true, if_false]
      refine List.pairwise_cons.mpr ⟨?_, insertOrd_pairwise le htot htrans x ys hys⟩
      intro z hz
      rcases (mem_insertOrd le x ys z).mp hz with h1 | h1
      · subst h1
        rcases htot y z with h2 | h2
        · exact h2
        · rw [h2] at hxy; exact absurd hxy (by simp)
      · exact hy z h1

theorem sortOrd_pairwise {α : Type} (le : α → α → Bool)
    (htot : ∀ a b, le a b = true ∨ le b a = true)
    (htrans : ∀ a b c, le a b = true → le b c = true → le a c = true) :
    ∀ l : List α, (sortOrd le l).Pairwise (fun a b => le a b = true)
  | [] => List.Pairwise.nil
  | x :: xs => insertOrd_pairwise le htot htrans x (sortOrd le xs) (sortOrd_pairwise le htot htrans xs)

theorem filter_insertOrd {α : Type} (le : α → α → Bool) (q : α → Bool)
    (hq : ∀ a b, le a b = false → q a = true → q b = false) (x : α) :
    ∀ l : List α, (insertOrd le x l).filter q = (x :: l).filter q
  | [] => rfl
  | y :: ys => by
    simp only [insertOrd]
    cases hxy : le x y with
    | true => simp
    | false =>
      simp only [Bool.false_eq_true, if_false]
      have ih := filter_insertOrd le q hq x ys
      cases hqx : q x with
      | true =>
        have hqy : q y = false := hq x y hxy hqx
        simp [List.filter_cons, hqx, hqy] at ih ⊢
        simpa [List.filter_cons, hqy] using ih
      | false =>
        simp [List.filter_cons, hqx] at ih ⊢
        simp [ih]

theorem filter_sortOrd {α : Type} (le : α → α → Bool) (q : α → Bool)
    (hq : ∀ a b, le a b = false → q a = true → q b = false) :
    ∀ l : List α, (sortOrd le l).filter q = l.filter q
  | [] => rfl
  | x :: xs => by
    rw [sortOrd, filter_insertOrd le q hq x (sortOrd le xs)]
    simp only [List.filter_cons]
    rw [filter_sortOrd le q hq xs]

theorem sorted_perm_eq {α : Type} (le : α → α → Bool) :
    ∀ l₁ l₂ : List α, List.Perm l₁ l₂ →
      l₁.Pairwise (fun a b => le a b = true) → l₂.Pairwise (fun a b => le a b = true) →
      (∀ a ∈ l₁, ∀ b ∈ l₁, le a b = true → le b a = true → a = b) → l₁ = l₂
  | [], l₂, hperm, _, _, _ => (hperm.nil_eq).symm ▸ rfl
  | a :: t₁, [], hperm, _, _, _ => absurd hperm.symm.nil_eq (by simp)
  | a :: t₁, b :: t₂, hperm, h₁, h₂, hanti => by
    have hab : a = b := by
      have haI : a ∈ b :: t₂ := hperm.mem_iff.mp (List.mem_cons_self a t₁)
      rcases List.mem_cons.mp haI with h | h
      · exact h
      · have hba : le b a = true := List.rel_of_pairwise_cons h₂ h
        have hbI : b ∈ a :: t₁ := hperm.mem_iff.mpr (List.mem_cons_self b t₂)
        rcases List.mem_cons.mp hbI with h' | h'
        · exact h'.symm
        · have hab' : le a b = true := List.rel_of_pairwise_cons h₁ h'
          exact hanti a (List.mem_cons_self a t₁) b (List.mem_cons_of_mem a h') hab' hba
    subst hab
    have htail : t₁ = t₂ :=
      sorted_perm_eq le t₁ t₂ hperm.cons_inv (List.pairwise_cons.mp h₁).2
        (List.pairwise_cons.mp h₂).2
        (fun x hx y hy => hanti x (List.mem_cons_of_mem a hx) y (List.mem_cons_of_mem a hy))
    rw [htail]

theorem charsLE_cons (a b : Char) (as bs : List Char) :
    charsLE (a :: as) (b :: bs) =
      if a.toNat < b.toNat then true else if b.toNat < a.toNat then false else charsLE as bs := rfl

theorem charsLE_total : ∀ a b : List Char, charsLE a b = true ∨ charsLE b a = true
  | [], _ => Or.inl rfl
  | _ :: _, [] => Or.inr rfl
  | a :: as, b :: bs => by
    rcases Nat.lt_trichotomy a.toNat b.toNat with h | h | h
    · left; rw [charsLE_cons, if_pos h]
    · rcases charsLE_total as bs with h' | h'
      · left; rw [charsLE_cons, if_neg (by omega), if_neg (by omega)]; exact h'
      · right; rw [charsLE_cons, if_neg (by omega), if_neg (by omega)]; exact h'
    · right; rw [charsLE_cons, if_pos h]

theorem charsLE_trans : ∀ a b c : List Char,
    charsLE a b = true → charsLE b c = true → charsLE a c = true
  | [], _, _, _, _ => rfl
  | _ :: _, [], _, h1, _ => by simp [charsLE] at h1
  | _ :: _, _ :: _, [], _, h2 => by simp [charsLE] at h2
  | a :: as, b :: bs, c :: cs, h1, h2 => by
    rw [charsLE_cons] at h1 h2 ⊢
    rcases Nat.lt_trichotomy a.toNat b.toNat with hab | hab | hab
    · rcases Nat.lt_trichotomy b.toNat c.toNat with hbc | hbc | hbc
      · rw [if_pos (by omega)]
      · rw [if_pos (by omega)]
      · rw [if_neg (by omega), if_pos hbc] at h2; exact absurd h2 (by simp)
    · rcases Nat.lt_trichotomy b.toNat c.toNat with hbc | hbc | hbc
      · rw [if_pos (by omega)]
      · rw [if_neg (by omega), if_neg (by omega)] at h1
        rw [if_neg (by omega), if_neg (by omega)] at h2
        rw [if_neg (by omega), if_neg (by omega)]
        exact charsLE_trans as bs cs h1 h2
      · rw [if_neg (by omega), if_pos hbc] at h2; exact absurd h2 (by simp)
    · rw [if_neg (by omega), if_pos hab] at h1; exact absurd h1 (by simp)

theorem charsLE_antisymm : ∀ a b : List Char,
    charsLE a b = true → charsLE b a = true → a = b
  | [], [], _, _ => rfl
  | [], _ :: _, _, h2 => by simp [charsLE] at h2
  | _ :: _, [], h1, _ => by simp [charsLE] at h1
  | a :: as, b :: bs, h1, h2 => by
    rw [charsLE_cons] at h1 h2
    rcases Nat.lt_trichotomy a.toNat b.toNat with hab | hab | hab
    · rw [if_neg (by omega), if_pos hab] at h2; exact absurd h2 (by simp)
    · rw [if_neg (by omega), if_neg (by omega)] at h1
      rw [if_neg (by omega), if_neg (by omega)] at h2
      have hhead : a = b := Char.ext (UInt32.ext hab)
      have htail : as = bs := charsLE_antisymm as bs h1 h2
      rw [hhead, htail]
    · rw [if_neg (by omega), if_pos hab] at h1; exact absurd h1 (by simp)

theorem strLE_total (a b : String) : strLE a b = true ∨ strLE b a = true :=
  charsLE_total a.data b.data

theorem strLE_trans (a b c : String) : strLE a b = true → strLE b c = true → strLE a c = true :=
  charsLE_trans a.data b.data c.data

theorem scoredLE_total (a b : Package × Nat) : scoredLE a b = true ∨ scoredLE b a = true := by
  unfold scoredLE
  rcases Nat.le_total b.2 a.2 with h | h
  · left; exact decide_eq_true h
  · right; exact decide_eq_true h

theorem scoredLE_trans (a b c : Package × Nat) :
    scoredLE a b = true → scoredLE b c = true → scoredLE a c = true := by
  unfold scoredLE
  intro h1 h2
  exact decide_eq_true (Nat.le_trans (of_decide_eq_true h2) (of_decide_eq_true h1))

theorem pkgLE_total (a b : Package) : pkgLE a b = true ∨ pkgLE b a = true := by
  unfold pkgLE
  rcases Nat.lt_trichotomy (langOrder a.language) (langOrder b.language) with h | h | h
  · left; simp [h]
  · rcases charsLE_total a.name.data b.name.data with h' | h'
    · left; simp [h, h']
    · right; simp [h.symm, h']
  · right; simp [h]

theorem pkgLE_trans (a b c : Package) :
    pkgLE a b = true → pkgLE b c = true → pkgLE a c = true := by
  unfold pkgLE
  intro h1 h2
  simp only [Bool.or_eq_true, Bool.and_eq_true, decide_eq_true_eq] at h1 h2 ⊢
  rcases h1 with h1 | ⟨h1e, h1n⟩
  · rcases h2 with h2 | ⟨h2e, _⟩
    · exact Or.inl (Nat.lt_trans h1 h2)
    · exact Or.inl (h2e ▸ h1)
  · rcases h2 with h2 | ⟨h2e, h2n⟩
    · exact Or.inl (h1e ▸ h2)
    · exact Or.inr ⟨h1e.trans h2e, charsLE_trans _ _ _ h1n h2n⟩

theorem langOrder_inj (a b : Language) : langOrder a = langOrder b → a = b := by
  cases a <;> cases b <;> simp [langOrder]

theorem pkgLE_antisymm_of_key (a b : Package)
    (hkey : a.language = b.language → a.name = b.name → a = b) :
    pkgLE a b = true → pkgLE b a = true → a = b := by
  unfold pkgLE
  intro h1 h2
  simp only [Bool.or_eq_true, Bool.and_eq_true, decide_eq_true_eq] at h1 h2
  rcases h1 with h1 | ⟨h1e, h1n⟩
  · rcases h2 with h2 | ⟨h2e, _⟩
    · omega
    · omega
  · rcases h2 with h2 | ⟨h2e, h2n⟩
    · omega
    · have hlang : a.language = b.language := langOrder_inj a.language b.language h1e
      have hdata : a.name.data = b.name.data := charsLE_antisymm _ _ h1n h2n
      have hname : a.name = b.name := by
        cases ha : a.name with
        | mk l =>
          cases hb : b.name with
          | mk l' =>
            rw [ha, hb] at hdata
            exact congrArg String.mk (by simpa using hdata)
      exact hkey hlang hname

theorem stringDataExt (s t : String) (h : s.data = t.data) : s = t := by
  cases s with
  | mk l =>
    cases t with
    | mk l' => exact congrArg String.mk (by simpa using h)

theorem string_ne_empty_of_data (s : String) (h : s.data ≠ []) : s ≠ "" := by
  intro he
  exact h (by rw [he])

/-! C4 -/

/-- C4: when the registry holds zero packages, getCrossLanguageCoverage
returns exactly the sentinel string, short-circuiting before any of the
matrix arithmetic. -/
theorem C4_coverage_empty_sentinel :
    getCrossLanguageCoverage [] = "No packages available." := rfl

/-! C7 -/

/-- C7 counterexample: deriveName of the empty directory name under the
noir language is the empty string, refuting the claim that deriveName
returns a non-empty string for every dirName and language. -/
theorem C7_counterexample : deriveName "" Language.noir = "" := rfl

/-- C7 (amended): deriveName agrees everywhere with the per-language
template with override table consulted first as the specification words
it, and its result is non-empty whenever dirName is non-empty (for the
noir template the empty dirName yields the empty string). -/
theorem C7_name_derivation (d : String) (lang : Language) :
    deriveName d lang = deriveNameSpec d lang ∧ (d ≠ "" → deriveName d lang ≠ "") := by
  constructor
  · cases lang with
    | solidity =>
      by_cases hd : ("excubiae" : String) = d
      · subst hd; rfl
      · have hb : (("excubiae" : String) == d) = false := by simpa using hd
        show deriveName d Language.solidity = deriveNameSpec d Language.solidity
        unfold deriveName deriveNameSpec
        simp only [NAME_OVERRIDES, List.find?, hb]
        rfl
    | typescript => rfl
    | circom => rfl
    | noir => rfl
    | rust => rfl
  · intro hd
    cases lang with
    | typescript =>
      apply string_ne_empty_of_data
      show ("@zk-kit/" ++ d).data ≠ []
      rw [String.data_append]
      simp
    | circom =>
      apply string_ne_empty_of_data
      show ("@zk-kit/" ++ d ++ ".circom").data ≠ []
      rw [String.data_append, String.data_append]
      simp
    | rust =>
      apply string_ne_empty_of_data
      show ("zk-kit-" ++ d).data ≠ []
      rw [String.data_append]
      simp
    | noir =>
      apply string_ne_empty_of_data
      show (String.mk (d.data.map (fun c => if c == '-' then '_' else c))).data ≠ []
      have hdata : d.data ≠ [] := by
        intro h
        exact hd (stringDataExt d "" h)
      simpa using hdata
    | solidity =>
      by_cases hcase : ("excubiae" : String) = d
      · subst hcase; decide
      · have hb : (("excubiae" : String) == d) = false := by simpa using hcase
        apply string_ne_empty_of_data
        have hval : deriveName d Language.solidity = "@zk-kit/" ++ d ++ ".sol" := by
          unfold deriveName
          simp only [NAME_OVERRIDES, List.find?, hb]
          rfl
        rw [hval, String.data_append, String.data_append]
        simp

/-- C7 witness: the amended theorem applied at a concrete noir package
directory, with the non-emptiness hypothesis discharged. -/
theorem C7_witness :
    deriveName "lean-imt" Language.noir = deriveNameSpec "lean-imt" Language.noir ∧
      deriveName "lean-imt" Language.noir ≠ "" :=
  ⟨(C7_name_derivation "lean-imt" Language.noir).1,
   (C7_name_derivation "lean-imt" Language.noir).2 (by decide)⟩

/-! C6 -/

/-- C6: inferCategory evaluates the ordered rule list with first match
winning; a dirName matching no rule maps to other, the rules demand
hyphen or string-boundary delimiters so plain substring occurrences do
not match, and a dirName matching two rules resolves to the earlier one;
illustrated on ximt, imtx, lean-imt, smt, pmt and imt-poseidon. -/
theorem C6_infer_category (s : String) :
    ((∀ r ∈ CATEGORY_RULES, ruleMatches r.1 s = false) → inferCategory s = Category.other)
  ∧ (∀ pre rule post, CATEGORY_RULES = pre ++ rule :: post →
       (∀ r ∈ pre, ruleMatches r.1 s = false) → ruleMatches rule.1 s = true →
       inferCategory s = rule.2)
  ∧ (inferCategory "ximt" = Category.other ∧ inferCategory "imtx" = Category.other
     ∧ jsIncludes "ximt" "imt" = true ∧ jsIncludes "imtx" "imt" = true
     ∧ inferCategory "lean-imt" = Category.merkleTrees
     ∧ inferCategory "smt" = Category.merkleTrees
     ∧ inferCategory "pmt" = Category.merkleTrees
     ∧ inferCategory "imt-poseidon" = Category.merkleTrees
     ∧ ∃ r1 ∈ CATEGORY_RULES, ∃ r2 ∈ CATEGORY_RULES,
         r1.2 = Category.merkleTrees ∧ r2.2 = Category.cryptography ∧
         ruleMatches r1.1 "imt-poseidon" = true ∧ ruleMatches r2.1 "imt-poseidon" = true) := by
  refine ⟨?_, ?_, by decide⟩
  · intro h
    unfold inferCategory
    rw [find?_eq_none_of (fun r => ruleMatches r.1 s) CATEGORY_RULES h]
  · intro pre rule post hsplit hpre hrule
    unfold inferCategory
    rw [hsplit, find?_append_first (fun r => ruleMatches r.1 s) rule post pre hpre hrule]

/-- C6 witness: the no-rule-matches hypothesis discharged at a concrete
unmatched name. -/
theorem C6_witness :
    (∀ r ∈ CATEGORY_RULES, ruleMatches r.1 "zzz" = false) ∧
      inferCategory "zzz" = Category.other :=
  ⟨by decide, (C6_infer_category "zzz").1 (by decide)⟩

/-! C5 -/

/-- C5 counterexample: on the empty registry the registry method
getReverseDependencies renders a normal dependency-info report, not the
no-packages sentinel. -/
theorem C5_counterexample :
    getReverseDependencies [] "lean-imt" =
        "# Dependency Info: lean-imt\n\n**Available in:** \n\nNo other ZK-Kit packages depend on lean-imt.\n"
      ∧ getReverseDependencies [] "lean-imt" ≠ "No packages available." := by
  constructor
  · rfl
  · decide

/-- C5 (amended): for the empty registry the no-packages sentinel (with
the hint appended) is emitted by the get_dependency_graph tool handler,
for every requested name, before getReverseDependencies is ever invoked;
the registry method itself renders a normal dependency-info report for
every id. -/
theorem C5_empty_registry (packages : List Package) (name : Option String) (id : String)
    (h : packages = []) :
    getDependencyGraphTool packages name = "No packages available." ++ EMPTY_REGISTRY_HINT ∧
      getReverseDependencies packages id =
        "# Dependency Info: " ++ id ++
          "\n\n**Available in:** \n\nNo other ZK-Kit packages depend on " ++ id ++ ".\n" := by
  subst h
  constructor
  · rfl
  · apply stringDataExt
    simp [getReverseDependencies, dedup, joinSep, String.data_append]

/-- C5 witness: the amended theorem applied at the empty registry with a
concrete name and id. -/
theorem C5_witness :
    getDependencyGraphTool [] (some "lean-imt") = "No packages available." ++ EMPTY_REGISTRY_HINT ∧
      getReverseDependencies [] "poseidon-lite" =
        "# Dependency Info: " ++ "poseidon-lite" ++
          "\n\n**Available in:** \n\nNo other ZK-Kit packages depend on " ++ "poseidon-lite" ++ ".\n" :=
  ⟨(C5_empty_registry [] (some "lean-imt") "poseidon-lite" rfl).1,
   (C5_empty_registry [] (some "lean-imt") "poseidon-lite" rfl).2⟩

/-! C3 -/

theorem orCongHit {α : Type} (A : Prop) (P : α → Prop) (x c : α) (L : List α) (hx : P x) :
    ((A ∨ c = x) ∨ (c ∈ L ∧ P c)) ↔ (A ∨ (c ∈ x :: L ∧ P c)) := by
  constructor
  · rintro ((hA | rfl) | ⟨hL, hP⟩)
    · exact Or.inl hA
    · exact Or.inr ⟨List.mem_cons_self c L, hx⟩
    · exact Or.inr ⟨List.mem_cons_of_mem x hL, hP⟩
  · rintro (hA | ⟨hcl, hP⟩)
    · exact Or.inl (Or.inl hA)
    · rcases List.mem_cons.mp hcl with rfl | hL
      · exact Or.inl (Or.inr rfl)
      · exact Or.inr ⟨hL, hP⟩

theorem orCongMiss {α : Type} (A : Prop) (P : α → Prop) (x c : α) (L : List α) (hx : ¬ P x) :
    (A ∨ (c ∈ L ∧ P c)) ↔ (A ∨ (c ∈ x :: L ∧ P c)) := by
  constructor
  · rintro (hA | ⟨hL, hP⟩)
    · exact Or.inl hA
    · exact Or.inr ⟨List.mem_cons_of_mem x hL, hP⟩
  · rintro (hA | ⟨hcl, hP⟩)
    · exact Or.inl hA
    · rcases List.mem_cons.mp hcl with rfl | hL
      · exact absurd hP hx
      · exact Or.inr ⟨hL, hP⟩

theorem classify_foldl_mem (packages : List Package) :
    ∀ (L : List String) (acc : List String × List String × List String) (c : String),
      (c ∈ (L.foldl (classifyStep packages) acc).1 ↔
        c ∈ acc.1 ∨ (c ∈ L ∧ 0 < (conceptDependents packages c).length))
    ∧ (c ∈ (L.foldl (classifyStep packages) acc).2.1 ↔
        c ∈ acc.2.1 ∨ (c ∈ L ∧ (conceptDependents packages c).length = 0 ∧
          0 < (conceptDeps packages c).length))
    ∧ (c ∈ (L.foldl (classifyStep packages) acc).2.2 ↔
        c ∈ acc.2.2 ∨ (c ∈ L ∧ (conceptDependents packages c).length = 0 ∧
          (conceptDeps packages c).length = 0))
  | [], acc, c => by simp
  | x :: L, acc, c => by
    have ih := classify_foldl_mem packages L
    simp only [List.foldl_cons]
    by_cases h1 : 0 < (conceptDependents packages x).length
    · have hstep : classifyStep packages acc x = (acc.1 ++ [x], acc.2.1, acc.2.2) := by
        simp [classifyStep, if_pos h1]
      rw [hstep]
      have h := ih (acc.1 ++ [x], acc.2.1, acc.2.2) c
      dsimp only at h
      refine ⟨?_, ?_, ?_⟩
      · rw [h.1]
        simp only [List.mem_append, List.mem_singleton]
        exact orCongHit (c ∈ acc.1)
          (fun y => 0 < (conceptDependents packages y).length) x c L h1
      · rw [h.2.1]
        exact orCongMiss (c ∈ acc.2.1)
          (fun y => (conceptDependents packages y).length = 0 ∧
            0 < (conceptDeps packages y).length) x c L (by omega)
      · rw [h.2.2]
        exact orCongMiss (c ∈ acc.2.2)
          (fun y => (conceptDependents packages y).length = 0 ∧
            (conceptDeps packages y).length = 0) x c L (by omega)
    · by_cases h2 : 0 < (conceptDeps packages x).length
      · have hstep : classifyStep packages acc x = (acc.1, acc.2.1 ++ [x], acc.2.2) := by
          simp [classifyStep, if_neg h1, if_pos h2]
        rw [hstep]
        have h := ih (acc.1, acc.2.1 ++ [x], acc.2.2) c
        dsimp only at h
        refine ⟨?_, ?_, ?_⟩
        · rw [h.1]
          exact orCongMiss (c ∈ acc.1)
            (fun y => 0 < (conceptDependents packages y).length) x c L h1
        · rw [h.2.1]
          simp only [List.mem_append, List.mem_singleton]
          exact orCongHit (c ∈ acc.2.1)
            (fun y => (conceptDependents packages y).length = 0 ∧
              0 < (conceptDeps packages y).length) x c L ⟨by omega, h2⟩
        · rw [h.2.2]
          exact orCongMiss (c ∈ acc.2.2)
            (fun y => (conceptDependents packages y).length = 0 ∧
              (conceptDeps packages y).length = 0) x c L (by omega)
      · have hstep : classifyStep packages acc x = (acc.1, acc.2.1, acc.2.2 ++ [x]) := by
          simp [classifyStep, if_neg h1, if_neg h2]
        rw [hstep]
        have h := ih (acc.1, acc.2.1, acc.2.2 ++ [x]) c
        dsimp only at h
        refine ⟨?_, ?_, ?_⟩
        · rw [h.1]
          exact orCongMiss (c ∈ acc.1)
            (fun y => 0 < (conceptDependents packages y).length) x c L h1
        · rw [h.2.1]
          exact orCongMiss (c ∈ acc.2.1)
            (fun y => (conceptDependents packages y).length = 0 ∧
              0 < (conceptDeps packages y).length) x c L (by omega)
        · rw [h.2.2]
          simp only [List.mem_append, List.mem_singleton]
          exact orCongHit (c ∈ acc.2.2)
            (fun y => (conceptDependents packages y).length = 0 ∧
              (conceptDeps packages y).length = 0) x c L ⟨by omega, by omega⟩

theorem foundational_mem_iff (packages : List Package) (c : String) :
    c ∈ foundationalConcepts packages ↔
      c ∈ allConcepts packages ∧ 0 < (conceptDependents packages c).length := by
  have h := (classify_foldl_mem packages (sortOrd strLE (allConcepts packages)) ([], [], []) c).1
  simpa [foundationalConcepts, classifyConcepts, mem_sortOrd] using h

theorem leaf_mem_iff (packages : List Package) (c : String) :
    c ∈ leafConcepts packages ↔
      c ∈ allConcepts packages ∧ (conceptDependents packages c).length = 0 ∧
        0 < (conceptDeps packages c).length := by
  have h := (classify_foldl_mem packages (sortOrd strLE (allConcepts packages)) ([], [], []) c).2.1
  simpa [leafConcepts, classifyConcepts, mem_sortOrd] using h

theorem independent_mem_iff (packages : List Package) (c : String) :
    c ∈ independentConcepts packages ↔
      c ∈ allConcepts packages ∧ (conceptDependents packages c).length = 0 ∧
        (conceptDeps packages c).length = 0 := by
  have h := (classify_foldl_mem packages (sortOrd strLE (allConcepts packages)) ([], [], []) c).2.2
  simpa [independentConcepts, classifyConcepts, mem_sortOrd] using h

/-- C3: over the concept graph every node with positive in-degree is
classified foundational, every node with zero in-degree and positive
out-degree is a leaf, every isolated node is independent; the classes are
mutually exclusive with in-degree taking priority; and in the three-node
chain a-b-c the middle concept b is foundational and not a leaf. -/
theorem C3_graph_classification (packages : List Package) :
    (∀ c ∈ allConcepts packages,
      (0 < (conceptDependents packages c).length → c ∈ foundationalConcepts packages)
      ∧ ((conceptDependents packages c).length = 0 → 0 < (conceptDeps packages c).length →
          c ∈ leafConcepts packages)
      ∧ ((conceptDependents packages c).length = 0 → (conceptDeps packages c).length = 0 →
          c ∈ independentConcepts packages))
  ∧ (∀ c : String,
      ¬(c ∈ foundationalConcepts packages ∧ c ∈ leafConcepts packages)
      ∧ ¬(c ∈ foundationalConcepts packages ∧ c ∈ independentConcepts packages)
      ∧ ¬(c ∈ leafConcepts packages ∧ c ∈ independentConcepts packages))
  ∧ ("b" ∈ foundationalConcepts chainPackages ∧ "b" ∉ leafConcepts chainPackages) := by
  refine ⟨?_, ?_, by decide, by decide⟩
  · intro c hc
    refine ⟨?_, ?_, ?_⟩
    · intro h1
      exact (foundational_mem_iff packages c).mpr ⟨hc, h1⟩
    · intro h1 h2
      exact (leaf_mem_iff packages c).mpr ⟨hc, h1, h2⟩
    · intro h1 h2
      exact (independent_mem_iff packages c).mpr ⟨hc, h1, h2⟩
  · intro c
    refine ⟨?_, ?_, ?_⟩
    · rintro ⟨hf, hl⟩
      have h1 := (foundational_mem_iff packages c).mp hf
      have h2 := (leaf_mem_iff packages c).mp hl
      omega
    · rintro ⟨hf, hi⟩
      have h1 := (foundational_mem_iff packages c).mp hf
      have h2 := (independent_mem_iff packages c).mp hi
      omega
    · rintro ⟨hl, hi⟩
      have h1 := (leaf_mem_iff packages c).mp hl
      have h2 := (independent_mem_iff packages c).mp hi
      omega

/-- C3 witness: the classification applied to the chain registry at the
concept a, whose in-degree is zero and out-degree positive. -/
theorem C3_witness :
    ("a" ∈ allConcepts chainPackages ∧ (conceptDependents chainPackages "a").length = 0 ∧
        0 < (conceptDeps chainPackages "a").length) ∧
      "a" ∈ leafConcepts chainPackages :=
  ⟨⟨by decide, by decide, by decide⟩,
   ((C3_graph_classification chainPackages).1 "a" (by decide)).2.1 (by decide) (by decide)⟩

/-! C8 -/

theorem mem_collect {ε α : Type} :
    ∀ (xs : List (Except ε (List α))) (acc : List α) (p : α),
      p ∈ xs.foldl collectOk acc ↔
        p ∈ acc ∨ ∃ ps, Except.ok ps ∈ xs ∧ p ∈ ps
  | [], acc, p => by simp
  | x :: xs, acc, p => by
    cases x with
    | ok ps =>
      simp only [List.foldl_cons, collectOk]
      rw [mem_collect xs (acc ++ ps) p]
      constructor
      · rintro (h | ⟨qs, hqs, hp⟩)
        · rcases List.mem_append.mp h with h' | h'
          · exact Or.inl h'
          · exact Or.inr ⟨ps, List.mem_cons_self _ xs, h'⟩
        · exact Or.inr ⟨qs, List.mem_cons_of_mem _ hqs, hp⟩
      · rintro (h | ⟨qs, hqs, hp⟩)
        · exact Or.inl (List.mem_append.mpr (Or.inl h))
        · rcases List.mem_cons.mp hqs with heq | hmem
          · have : qs = ps := by injection heq
            subst this
            exact Or.inl (List.mem_append.mpr (Or.inr hp))
          · exact Or.inr ⟨qs, hmem, hp⟩
    | error e =>
      simp only [List.foldl_cons, collectOk]
      rw [mem_collect xs acc p]
      constructor
      · rintro (h | ⟨qs, hqs, hp⟩)
        · exact Or.inl h
        · exact Or.inr ⟨qs, List.mem_cons_of_mem _ hqs, hp⟩
      · rintro (h | ⟨qs, hqs, hp⟩)
        · exact Or.inl h
        · rcases List.mem_cons.mp hqs with heq | hmem
          · exact absurd heq (by simp)
          · exact Or.inr ⟨qs, hmem, hp⟩

theorem mem_survivors (collab : Collab) (p : Package) :
    p ∈ survivors collab ↔ ∃ repo ∈ REPOS, ∃ dirs, collab.listing repo = Except.ok dirs ∧
      ∃ d ∈ dirs, ∃ m, collab.manifest repo d = Except.ok m ∧ p = mkPackage repo d m := by
  unfold survivors
  rw [mem_collect]
  simp only [List.not_mem_nil, false_or]
  constructor
  · rintro ⟨ps, hmem, hp⟩
    rcases List.mem_map.mp hmem with ⟨repo, hrepo, heq⟩
    unfold discoverRepo at heq
    cases hl : collab.listing repo with
    | error e =>
      rw [hl] at heq
      exact absurd heq (by simp)
    | ok dirs =>
      rw [hl] at heq
      have hps : (dirs.filterMap (fun dirName =>
          match collab.manifest repo dirName with
          | .error _ => none
          | .ok m => some (mkPackage repo dirName m))) = ps := by
        injection heq
      subst hps
      rcases List.mem_filterMap.mp hp with ⟨d, hd, hfd⟩
      cases hm : collab.manifest repo d with
      | error e =>
        rw [hm] at hfd
        exact absurd hfd (by simp)
      | ok m =>
        rw [hm] at hfd
        have : mkPackage repo d m = p := by injection hfd
        exact ⟨repo, hrepo, dirs, hl, d, hd, m, hm, this.symm⟩
  · rintro ⟨repo, hrepo, dirs, hl, d, hd, m, hm, rfl⟩
    refine ⟨dirs.filterMap (fun dirName =>
        match collab.manifest repo dirName with
        | .error _ => none
        | .ok mm => some (mkPackage repo dirName mm)),
      List.mem_map.mpr ⟨repo, hrepo, ?_⟩, ?_⟩
    · unfold discoverRepo
      rw [hl]
    · exact List.mem_filterMap.mpr ⟨d, hd, by rw [hm]⟩

/-- C8: discovery never rejects; every returned package stems from a
successful listing and a successful manifest fetch (so a failed listing
contributes zero packages and a failed manifest drops exactly its own
subdirectory while siblings survive), and when every listing fails the
result is the empty sequence. -/
theorem C8_discovery_isolation (collab : Collab) :
    (∀ p : Package, p ∈ discoverAllPackages collab ↔
      ∃ repo ∈ REPOS, ∃ dirs, collab.listing repo = Except.ok dirs ∧
        ∃ d ∈ dirs, ∃ m, collab.manifest repo d = Except.ok m ∧ p = mkPackage repo d m)
  ∧ ((∀ repo ∈ REPOS, ∃ e, collab.listing repo = Except.error e) →
      discoverAllPackages collab = []) := by
  have hmem : ∀ p : Package, p ∈ discoverAllPackages collab ↔ p ∈ survivors collab :=
    fun p => mem_sortOrd pkgLE (survivors collab) p
  constructor
  · intro p
    rw [hmem p]
    exact mem_survivors collab p
  · intro hall
    rw [List.eq_nil_iff_forall_not_mem]
    intro p hp
    rcases (mem_survivors collab p).mp ((hmem p).mp hp) with ⟨repo, hrepo, dirs, hl, _⟩
    rcases hall repo hrepo with ⟨e, he⟩
    rw [he] at hl
    exact absurd hl (by simp)

/-- C8 witness: with the all-failing collaborator the all-listings-fail
hypothesis is discharged and discovery returns the empty sequence. -/
theorem C8_witness :
    (∀ repo ∈ REPOS, ∃ e, failCollab.listing repo = Except.error e) ∧
      discoverAllPackages failCollab = [] :=
  ⟨fun _ _ => ⟨"network error", rfl⟩,
   (C8_discovery_isolation failCollab).2 (fun _ _ => ⟨"network error", rfl⟩)⟩

/-! C9 -/

/-- C9: the discovery output is sorted by the fixed language precedence
and then by name, it is a permutation of the surviving packages, and the
sort is a function of the surviving set alone: any two pre-sort
arrangements (the only trace a different completion order of the
concurrent fetches could leave) with distinct language-name keys sort to
the same sequence. -/
theorem C9_discovery_order (collab : Collab) :
    (discoverAllPackages collab).Pairwise (fun a b => pkgLE a b = true)
  ∧ List.Perm (discoverAllPackages collab) (survivors collab)
  ∧ (∀ l₁ l₂ : List Package, List.Perm l₁ l₂ →
      (∀ a ∈ l₁, ∀ b ∈ l₁, a.language = b.language → a.name = b.name → a = b) →
      sortOrd pkgLE l₁ = sortOrd pkgLE l₂) := by
  refine ⟨sortOrd_pairwise pkgLE pkgLE_total pkgLE_trans _, sortOrd_perm pkgLE _, ?_⟩
  intro l₁ l₂ hperm hdist
  apply sorted_perm_eq pkgLE
  · exact (sortOrd_perm pkgLE l₁).trans (hperm.trans (sortOrd_perm pkgLE l₂).symm)
  · exact sortOrd_pairwise pkgLE pkgLE_total pkgLE_trans l₁
  · exact sortOrd_pairwise pkgLE pkgLE_total pkgLE_trans l₂
  · intro a ha b hb hab hba
    refine pkgLE_antisymm_of_key a b ?_ hab hba
    intro hl hn
    exact hdist a ((sortOrd_perm pkgLE l₁).mem_iff.mp ha)
      b ((sortOrd_perm pkgLE l₁).mem_iff.mp hb) hl hn

/-- C9 witness: two opposite arrivals of the same two packages sort to
the same sequence, with the permutation and key-distinctness hypotheses
discharged concretely. -/
theorem C9_witness :
    (List.Perm [tsLeanImt, rustLeanImt] [rustLeanImt, tsLeanImt] ∧
      (∀ a ∈ [tsLeanImt, rustLeanImt], ∀ b ∈ [tsLeanImt, rustLeanImt],
        a.language = b.language → a.name = b.name → a = b)) ∧
      sortOrd pkgLE [tsLeanImt, rustLeanImt] = sortOrd pkgLE [rustLeanImt, tsLeanImt] :=
  ⟨⟨by decide, by decide⟩,
   (C9_discovery_order failCollab).2.2 [tsLeanImt, rustLeanImt] [rustLeanImt, tsLeanImt]
     (by decide) (by decide)⟩

/-! C2 -/

theorem scoreAux_zero_of (p : Package) :
    ∀ (ts : List String) (acc : Nat), (∃ t ∈ ts, termScore p t = 0) → scoreAux p ts acc = 0
  | [], _, h => absurd h (by simp)
  | t :: ts, acc, h => by
    by_cases ht : termScore p t = 0
    · simp [scoreAux, ht]
    · simp only [scoreAux, if_neg ht]
      apply scoreAux_zero_of p ts
      rcases h with ⟨u, hu, hu0⟩
      rcases List.mem_cons.mp hu with rfl | hmem
      · exact absurd hu0 ht
      · exact ⟨u, hmem, hu0⟩

theorem scoreAux_sum_of (p : Package) :
    ∀ (ts : List String) (acc : Nat), (∀ t ∈ ts, termScore p t ≠ 0) →
      scoreAux p ts acc = acc + (ts.map (termScore p)).sum
  | [], acc, _ => by simp [scoreAux]
  | t :: ts, acc, h => by
    have ht : termScore p t ≠ 0 := h t (List.mem_cons_self t ts)
    have ih := scoreAux_sum_of p ts (acc + termScore p t)
      (fun u hu => h u (List.mem_cons_of_mem t hu))
    simp only [scoreAux, if_neg ht, List.map_cons, List.sum_cons]
    rw [ih]
    omega

theorem scorePackage_pos_iff (terms : List String) (p : Package) (hne : terms ≠ []) :
    0 < scorePackage terms p ↔ ∀ t ∈ terms, termScore p t ≠ 0 := by
  constructor
  · intro h t ht h0
    rw [scorePackage, scoreAux_zero_of p terms 0 ⟨t, ht, h0⟩] at h
    omega
  · intro h
    rw [scorePackage, scoreAux_sum_of p terms 0 h]
    cases terms with
    | nil => exact absurd rfl hne
    | cons t ts =>
      have h1 : termScore p t ≠ 0 := h t (List.mem_cons_self t ts)
      simp only [List.map_cons, List.sum_cons]
      omega

theorem termScore_ne_zero_iff (p : Package) (t : String) :
    termScore p t ≠ 0 ↔
      (jsIncludes (jsToLower p.name) t = true ∨ jsIncludes (jsToLower p.dirName) t = true
        ∨ jsIncludes (jsToLower p.description) t = true) := by
  unfold termScore
  cases h1 : jsIncludes (jsToLower p.name) t <;>
    cases h2 : jsIncludes (jsToLower p.dirName) t <;>
      cases h3 : jsIncludes (jsToLower p.description) t <;> simp

/-- C2: with at least one query term, search returns exactly the filtered
packages every term of which matches name, dirName or description; the
total score is the sum of the per-term 3-2-1 field scores; the output is
ordered by non-increasing total score; and within one score level the
output preserves the filtered registry order. -/
theorem C2_search_ranking (packages : List Package) (q : String) (lang : Option Language)
    (cat : Option Category) (hterms : splitTerms q ≠ []) :
    (∀ p : Package, p ∈ search packages (some q) lang cat ↔
        p ∈ applyFilters packages lang cat ∧
          ∀ t ∈ splitTerms q,
            (jsIncludes (jsToLower p.name) t = true ∨ jsIncludes (jsToLower p.dirName) t = true
              ∨ jsIncludes (jsToLower p.description) t = true))
  ∧ (∀ p ∈ search packages (some q) lang cat,
        scorePackage (splitTerms q) p = ((splitTerms q).map (termScore p)).sum)
  ∧ (search packages (some q) lang cat).Pairwise
      (fun a b => scorePackage (splitTerms q) b ≤ scorePackage (splitTerms q) a)
  ∧ (∀ s : Nat, 0 < s →
      (search packages (some q) lang cat).filter
          (fun p => scorePackage (splitTerms q) p == s)
        = (applyFilters packages lang cat).filter
            (fun p => scorePackage (splitTerms q) p == s)) := by
  have hq : q ≠ "" := by
    intro h
    rw [h] at hterms
    exact hterms rfl
  have hsearch : search packages (some q) lang cat =
      (sortOrd scoredLE (((applyFilters packages lang cat).map
        (fun p => (p, scorePackage (splitTerms q) p))).filter
          (fun r => decide (0 < r.2)))).map (fun r => r.1) := by
    simp only [search]
    rw [if_neg hq]
  have hmem : ∀ p : Package, p ∈ search packages (some q) lang cat ↔
      p ∈ applyFilters packages lang cat ∧ 0 < scorePackage (splitTerms q) p := by
    intro p
    rw [hsearch]
    constructor
    · intro hp
      rcases List.mem_map.mp hp with ⟨x, hx, rfl⟩
      have hx1 := (mem_sortOrd scoredLE _ x).mp hx
      rcases List.mem_filter.mp hx1 with ⟨hxs, hxpos⟩
      rcases List.mem_map.mp hxs with ⟨r, hr, rfl⟩
      exact ⟨hr, by simpa using hxpos⟩
    · rintro ⟨hb, hpos⟩
      refine List.mem_map.mpr ⟨(p, scorePackage (splitTerms q) p), ?_, rfl⟩
      refine (mem_sortOrd scoredLE _ _).mpr (List.mem_filter.mpr ?_)
      exact ⟨List.mem_map.mpr ⟨p, hb, rfl⟩, by simpa using hpos⟩
  have hscore : ∀ x : Package × Nat,
      x ∈ sortOrd scoredLE (((applyFilters packages lang cat).map
        (fun p => (p, scorePackage (splitTerms q) p))).filter
          (fun r => decide (0 < r.2))) → x.2 = scorePackage (splitTerms q) x.1 := by
    intro x hx
    have hx1 := (mem_sortOrd scoredLE _ x).mp hx
    rcases List.mem_filter.mp hx1 with ⟨hxs, _⟩
    rcases List.mem_map.mp hxs with ⟨r, _, rfl⟩
    rfl
  refine ⟨?_, ?_, ?_, ?_⟩
  · intro p
    rw [hmem p, scorePackage_pos_iff (splitTerms q) p hterms]
    constructor
    · rintro ⟨hb, h⟩
      exact ⟨hb, fun t ht => (termScore_ne_zero_iff p t).mp (h t ht)⟩
    · rintro ⟨hb, h⟩
      exact ⟨hb, fun t ht => (termScore_ne_zero_iff p t).mpr (h t ht)⟩
  · intro p hp
    have h := ((hmem p).mp hp).2
    have hall := (scorePackage_pos_iff (splitTerms q) p hterms).mp h
    rw [scorePackage, scoreAux_sum_of p (splitTerms q) 0 hall]
    omega
  · rw [hsearch]
    have hpair := sortOrd_pairwise scoredLE scoredLE_total scoredLE_trans
      (((applyFilters packages lang cat).map
        (fun p => (p, scorePackage (splitTerms q) p))).filter
          (fun r => decide (0 < r.2)))
    rw [List.pairwise_map]
    refine hpair.imp_of_mem ?_
    intro a b ha hb hab
    have h1 := hscore a ha
    have h2 := hscore b hb
    have hab' : b.2 ≤ a.2 := of_decide_eq_true hab
    rw [h1, h2] at hab'
    exact hab'
  · intro s hs
    have hstab : ∀ a b : Package × Nat, scoredLE a b = false →
        (a.2 == s) = true → (b.2 == s) = false := by
      intro a b hab ha
      have h1 : a.2 = s := by simpa using ha
      have h2 : ¬ (b.2 ≤ a.2) := of_decide_eq_false hab
      simp only [beq_eq_false_iff_ne]
      omega
    rw [hsearch]
    rw [List.map_filter (fun r : Package × Nat => r.1)]
    have hcong1 : (sortOrd scoredLE (((applyFilters packages lang cat).map
          (fun p => (p, scorePackage (splitTerms q) p))).filter
            (fun r => decide (0 < r.2)))).filter
        ((fun p => scorePackage (splitTerms q) p == s) ∘ (fun r : Package × Nat => r.1))
      = (sortOrd scoredLE (((applyFilters packages lang cat).map
          (fun p => (p, scorePackage (splitTerms q) p))).filter
            (fun r => decide (0 < r.2)))).filter (fun r => r.2 == s) := by
      apply List.filter_congr
      intro x hx
      have hx2 := hscore x hx
      simp [Function.comp, hx2]
    rw [hcong1]
    rw [filter_sortOrd scoredLE (fun r => r.2 == s) hstab]
    rw [List.filter_filter]
    have hcong2 : ∀ a ∈ (applyFilters packages lang cat).map
        (fun p => (p, scorePackage (splitTerms q) p)),
        ((a.2 == s) && decide (0 < a.2)) = (a.2 == s) := by
      intro a _
      cases ha : (a.2 == s) with
      | true =>
        have : a.2 = s := by simpa using ha
        simp [this, hs]
      | false => simp
    rw [List.filter_congr hcong2]
    rw [List.map_filter (fun p : Package => (p, scorePackage (splitTerms q) p))]
    have hid : List.map ((fun r : Package × Nat => r.1) ∘
          fun p : Package => (p, scorePackage (splitTerms q) p))
        (List.filter ((fun x : Package × Nat => x.2 == s) ∘
          fun p : Package => (p, scorePackage (splitTerms q) p))
          (applyFilters packages lang cat))
      = List.map (fun p : Package => p)
          (List.filter (fun p : Package => scorePackage (splitTerms q) p == s)
            (applyFilters packages lang cat)) := rfl
    rw [List.map_map, hid]
    simp

/-- C2 witness: the ranking theorem applied to the demo registry at the
one-term query imt, with the non-empty-terms hypothesis discharged. -/
theorem C2_witness :
    splitTerms "imt" ≠ [] ∧
    ((∀ p : Package, p ∈ search demoRegistry (some "imt") none none ↔
        p ∈ applyFilters demoRegistry none none ∧
          ∀ t ∈ splitTerms "imt",
            (jsIncludes (jsToLower p.name) t = true ∨ jsIncludes (jsToLower p.dirName) t = true
              ∨ jsIncludes (jsToLower p.description) t = true))
    ∧ (∀ p ∈ search demoRegistry (some "imt") none none,
        scorePackage (splitTerms "imt") p = ((splitTerms "imt").map (termScore p)).sum)
    ∧ (search demoRegistry (some "imt") none none).Pairwise
        (fun a b => scorePackage (splitTerms "imt") b ≤ scorePackage (splitTerms "imt") a)
    ∧ (∀ s : Nat, 0 < s →
        (search demoRegistry (some "imt") none none).filter
            (fun p => scorePackage (splitTerms "imt") p == s)
          = (applyFilters demoRegistry none none).filter
              (fun p => scorePackage (splitTerms "imt") p == s))) :=
  ⟨by decide, C2_search_ranking demoRegistry "imt" none none (by decide)⟩

/-! C1 -/

theorem startsWithChars_append : ∀ pre xs : List Char, startsWithChars pre (pre ++ xs) = true
  | [], _ => rfl
  | c :: cs, xs => by simp [startsWithChars, startsWithChars_append cs xs]

/-- C1 counterexample: in a registry holding the TypeScript and Rust
lean-imt packages (which share the dirName lean-imt), getByName of the
Rust package dirName resolves to the TypeScript package through the
scope-stripped-name step, so it does not return the Rust package P. -/
theorem C1_counterexample :
    rustLeanImt ∈ demoRegistry ∧ rustLeanImt.dirName = "lean-imt" ∧
      getByName demoRegistry rustLeanImt.dirName = some tsLeanImt ∧
      tsLeanImt ≠ rustLeanImt := by
  refine ⟨by decide, rfl, by decide, by decide⟩

/-- C1 (amended): getByName resolves in the order exact name,
scope-stripped name, dirName, normalized form, first match wins and
case-insensitively: any query agreeing with P.name up to case returns P
when no other package shares that lowercased name; the dirName and
scope-stripped-name lookups return P when no earlier resolution step is
captured by a different package; and the normalized queries lean_imt and
zk_kit_lean_imt resolve to the package with dirName lean-imt under the
same no-capture conditions. -/
theorem C1_get_by_name_resolution (packages : List Package) (P : Package) (hP : P ∈ packages) :
    ( (∀ Q ∈ packages, jsToLower Q.name = jsToLower P.name → Q = P) →
      ∀ q : String, jsToLower q = jsToLower P.name → getByName packages q = some P )
  ∧ ( (∀ Q ∈ packages, jsToLower Q.name = jsToLower P.dirName → Q = P) →
      (∀ Q ∈ packages, stripScope (jsToLower Q.name) = jsToLower P.dirName → Q = P) →
      (∀ Q ∈ packages, jsToLower Q.dirName = jsToLower P.dirName → Q = P) →
      getByName packages P.dirName = some P )
  ∧ ( ∀ rest : List Char, P.name.data = "@zk-kit/".data ++ rest →
      (∀ Q ∈ packages, jsToLower Q.name = jsToLower (String.mk rest) → Q = P) →
      (∀ Q ∈ packages, stripScope (jsToLower Q.name) = jsToLower (String.mk rest) → Q = P) →
      getByName packages (String.mk rest) = some P )
  ∧ ( jsToLower P.dirName = "lean-imt" →
      (∀ Q ∈ packages, jsToLower Q.dirName = "lean-imt" → Q = P) →
      (∀ Q ∈ packages, jsToLower Q.name = "lean_imt" → Q = P) →
      (∀ Q ∈ packages, stripScope (jsToLower Q.name) = "lean_imt" → Q = P) →
      (∀ Q ∈ packages, jsToLower Q.dirName = "lean_imt" → Q = P) →
      (∀ Q ∈ packages, jsToLower Q.name = "zk_kit_lean_imt" → Q = P) →
      (∀ Q ∈ packages, stripScope (jsToLower Q.name) = "zk_kit_lean_imt" → Q = P) →
      (∀ Q ∈ packages, jsToLower Q.dirName = "zk_kit_lean_imt" → Q = P) →
      (∀ Q ∈ packages, jsToLower Q.dirName = "zk-kit-lean-imt" → Q = P) →
      getByName packages "lean_imt" = some P ∧ getByName packages "zk_kit_lean_imt" = some P ) := by
  refine ⟨?_, ?_, ?_, ?_⟩
  · intro huniq q hql
    have hfind : packages.find? (fun p => jsToLower p.name == jsToLower q) = some P := by
      apply find?_eq_some_of
      · exact hP
      · rw [hql]; simp
      · intro b hb hpb
        exact huniq b hb (hql ▸ beq_iff_eq.mp hpb)
    simp only [getByName]
    rw [hfind]
  · intro h1 h2 h3
    simp only [getByName]
    rcases find?_uniq_cases (fun p => jsToLower p.name == jsToLower P.dirName) P packages
        (fun b hb hpb => h1 b hb (beq_iff_eq.mp hpb)) with hf1 | hf1
    · rw [hf1]
    · rw [hf1]
      rcases find?_uniq_cases (fun p => stripScope (jsToLower p.name) == jsToLower P.dirName)
          P packages (fun b hb hpb => h2 b hb (beq_iff_eq.mp hpb)) with hf2 | hf2
      · rw [hf2]
      · rw [hf2]
        have hf3 : packages.find? (fun p => jsToLower p.dirName == jsToLower P.dirName)
            = some P := by
          apply find?_eq_some_of
          · exact hP
          · simp
          · intro b hb hpb
            exact h3 b hb (beq_iff_eq.mp hpb)
        rw [hf3]
  · intro rest hname h1 h2
    have hlow : jsToLower (String.mk rest) = String.mk (rest.map Char.toLower) := rfl
    have hPpred : stripScope (jsToLower P.name) = jsToLower (String.mk rest) := by
      unfold jsToLower stripScope
      rw [hname, List.map_append]
      have hscope : ("@zk-kit/".data.map Char.toLower) = "@zk-kit/".data := by decide
      rw [hscope]
      unfold stripIfPre
      rw [if_pos (startsWithChars_append "@zk-kit/".data (rest.map Char.toLower))]
      rw [List.drop_left]
    simp only [getByName]
    rcases find?_uniq_cases (fun p => jsToLower p.name == jsToLower (String.mk rest)) P packages
        (fun b hb hpb => h1 b hb (beq_iff_eq.mp hpb)) with hf1 | hf1
    · rw [hf1]
    · rw [hf1]
      have hf2 : packages.find?
          (fun p => stripScope (jsToLower p.name) == jsToLower (String.mk rest)) = some P := by
        apply find?_eq_some_of
        · exact hP
        · rw [hPpred]; simp
        · intro b hb hpb
          exact h2 b hb (beq_iff_eq.mp hpb)
      rw [hf2]
  · intro hdir hD hA hB hC hE hF hG hH
    constructor
    · have e1 : jsToLower "lean_imt" = "lean_imt" := by decide
      have e2 : underscoresToHyphens "lean_imt" = "lean-imt" := by decide
      have e3 : stripZkKitPre "lean-imt" = "lean-imt" := by decide
      simp only [getByName]
      rw [e1, e2, e3]
      rcases find?_uniq_cases (fun p => jsToLower p.name == "lean_imt") P packages
          (fun b hb hpb => hA b hb (beq_iff_eq.mp hpb)) with hf1 | hf1
      · rw [hf1]
      · rw [hf1]
        rcases find?_uniq_cases (fun p => stripScope (jsToLower p.name) == "lean_imt") P packages
            (fun b hb hpb => hB b hb (beq_iff_eq.mp hpb)) with hf2 | hf2
        · rw [hf2]
        · rw [hf2]
          rcases find?_uniq_cases (fun p => jsToLower p.dirName == "lean_imt") P packages
              (fun b hb hpb => hC b hb (beq_iff_eq.mp hpb)) with hf3 | hf3
          · rw [hf3]
          · rw [hf3]
            rw [if_pos (Or.inl (by decide))]
            apply find?_eq_some_of
            · exact hP
            · rw [hdir]; simp
            · intro b hb hpb
              simp only [Bool.or_eq_true, beq_iff_eq] at hpb
              rcases hpb with hpb | hpb <;> exact hD b hb hpb
    · have e1 : jsToLower "zk_kit_lean_imt" = "zk_kit_lean_imt" := by decide
      have e2 : underscoresToHyphens "zk_kit_lean_imt" = "zk-kit-lean-imt" := by decide
      have e3 : stripZkKitPre "zk-kit-lean-imt" = "lean-imt" := by decide
      simp only [getByName]
      rw [e1, e2, e3]
      rcases find?_uniq_cases (fun p => jsToLower p.name == "zk_kit_lean_imt") P packages
          (fun b hb hpb => hE b hb (beq_iff_eq.mp hpb)) with hf1 | hf1
      case _ => rw [hf1]
      case _ =>
        rw [hf1]
        rcases find?_uniq_cases (fun p => stripScope (jsToLower p.name) == "zk_kit_lean_imt")
            P packages (fun b hb hpb => hF b hb (beq_iff_eq.mp hpb)) with hf2 | hf2
        case _ => rw [hf2]
        case _ =>
          rw [hf2]
          rcases find?_uniq_cases (fun p => jsToLower p.dirName == "zk_kit_lean_imt") P packages
              (fun b hb hpb => hG b hb (beq_iff_eq.mp hpb)) with hf3 | hf3
          case _ => rw [hf3]
          case _ =>
            rw [hf3]
            rw [if_pos (Or.inl (by decide))]
            apply find?_eq_some_of
            · exact hP
            · rw [hdir]; simp
            · intro b hb hpb
              simp only [Bool.or_eq_true, beq_iff_eq] at hpb
              rcases hpb with hpb | hpb
              · exact hD b hb hpb
              · exact hH b hb hpb

/-- C1 witness: the resolution theorem applied to a singleton registry,
discharging the no-capture hypotheses and evaluating the upper-case,
dirName, scope-stripped and normalized lookups concretely. -/
theorem C1_witness :
    (tsLeanImt ∈ [tsLeanImt] ∧ jsToLower (jsToUpper tsLeanImt.name) = jsToLower tsLeanImt.name) ∧
    getByName [tsLeanImt] (jsToUpper tsLeanImt.name) = some tsLeanImt ∧
    getByName [tsLeanImt] tsLeanImt.dirName = some tsLeanImt ∧
    getByName [tsLeanImt] (String.mk "lean-imt".data) = some tsLeanImt ∧
    getByName [tsLeanImt] "lean_imt" = some tsLeanImt ∧
    getByName [tsLeanImt] "zk_kit_lean_imt" = some tsLeanImt :=
  ⟨⟨by decide, by decide⟩,
   (C1_get_by_name_resolution [tsLeanImt] tsLeanImt (by decide)).1 (by decide)
     (jsToUpper tsLeanImt.name) (by decide),
   (C1_get_by_name_resolution [tsLeanImt] tsLeanImt (by decide)).2.1 (by decide) (by decide)
     (by decide),
   (C1_get_by_name_resolution [tsLeanImt] tsLeanImt (by decide)).2.2.1 "lean-imt".data
     (by decide) (by decide) (by decide),
   ((C1_get_by_name_resolution [tsLeanImt] tsLeanImt (by decide)).2.2.2 (by decide) (by decide)
     (by decide) (by decide) (by decide) (by decide) (by decide) (by decide) (by decide)).1,
   ((C1_get_by_name_resolution [tsLeanImt] tsLeanImt (by decide)).2.2.2 (by decide) (by decide)
     (by decide) (by decide) (by decide) (by decide) (by decide) (by decide) (by decide)).2⟩

/-! C10 -/

theorem wsChar_toLower (c : Char) (h : isWsChar c = true) : Char.toLower c = c := by
  unfold isWsChar at h
  simp only [Bool.or_eq_true, beq_iff_eq] at h
  rcases h with ((h | h) | h) | h <;> (subst h; decide)

theorem wordsAux_ws : ∀ l : List Char, (∀ c ∈ l, isWsChar c = true) → wordsAux l [] = []
  | [], _ => rfl
  | c :: cs, h => by
    have hc := h c (List.mem_cons_self c cs)
    have ih := wordsAux_ws cs (fun x hx => h x (List.mem_cons_of_mem c hx))
    simp [wordsAux, hc, ih]

theorem splitTerms_ws (q : String) (h : ∀ c ∈ q.data, isWsChar c = true) : splitTerms q = [] := by
  unfold splitTerms jsToLower
  rw [wordsAux_ws]
  · rfl
  · intro c hc
    rcases List.mem_map.mp (by simpa using hc) with ⟨c₀, hc₀, rfl⟩
    rw [wsChar_toLower c₀ (h c₀ hc₀)]
    exact h c₀ hc₀

/-- C10: a non-empty but whitespace-only query splits into zero terms, so
every package scores zero and is removed by the positive-score filter:
search returns the empty list, whereas an omitted query returns the whole
filtered set in registry order. -/
theorem C10_whitespace_query (packages : List Package) (lang : Option Language)
    (cat : Option Category) (q : String) (hq : q ≠ "")
    (hws : ∀ c ∈ q.data, isWsChar c = true) :
    search packages (some q) lang cat = [] ∧
      search packages none lang cat = applyFilters packages lang cat := by
  refine ⟨?_, rfl⟩
  have hterms : splitTerms q = [] := splitTerms_ws q hws
  simp only [search]
  rw [if_neg hq, hterms]
  have hfil : ((applyFilters packages lang cat).map
      (fun p => (p, scorePackage [] p))).filter (fun r => decide (0 < r.2)) = [] := by
    rw [List.filter_eq_nil_iff]
    intro x hx
    rcases List.mem_map.mp hx with ⟨p, _, rfl⟩
    simp [scorePackage, scoreAux]
  rw [hfil]
  rfl

/-- C10 witness: the hypotheses discharged at the single-space query over
the demo registry, which is non-empty, so the two calls differ. -/
theorem C10_witness :
    ((" " : String) ≠ "" ∧ ∀ c ∈ (" " : String).data, isWsChar c = true) ∧
      (search demoRegistry (some " ") none none = [] ∧
        search demoRegistry none none none = applyFilters demoRegistry none none) :=
  ⟨⟨by decide, by decide⟩, C10_whitespace_query demoRegistry none none " " (by decide) (by decide)⟩

end ZkKit
